import Mathlib

/-!
Shallow embedding of `catalog.py`: a small library-catalog program that
distributes a pile of books across shelves grouped by category
(round-robin over the case-insensitively sorted category list), sorts each
shelf by title, and verifies the "same category, same shelf" invariant.

Python strings are modelled by `String`; `str.lower` / `str.casefold` are
modelled as a character-wise lowering of the string's character list, and
Python's code-point lexicographic string comparison is modelled by `lexLE`
on character lists.  Python's `list.sort` / `sorted` are stable sorts by a
key; they are modelled by `List.insertionSort`, which is stable.
-/

/-- The case-folding key used by `sorted(..., key=str.lower)` and
`sort(key=lambda b: b.title.casefold())`: the string's characters, lowered. -/
def lowerKey (s : String) : List Char := s.data.map Char.toLower

/-- Code-point lexicographic `≤` on character lists, as Python compares
strings. -/
def lexLE : List Char → List Char → Bool
  | [], _ => true
  | _ :: _, [] => false
  | a :: as, b :: bs => if a < b then true else if b < a then false else lexLE as bs

/-- Comparison of two values by a character-list key: the order used by
Python's key-based sorts. -/
def byKeyLE {α : Type} (key : α → List Char) (x y : α) : Prop :=
  lexLE (key x) (key y) = true

instance {α : Type} (key : α → List Char) : DecidableRel (byKeyLE key) :=
  fun _ _ => inferInstanceAs (Decidable (_ = true))

theorem lexLE_refl : ∀ l : List Char, lexLE l l = true
  | [] => rfl
  | _ :: as => by simp [lexLE, lexLE_refl as]

theorem lexLE_cons_iff {a b : Char} {as bs : List Char} :
    lexLE (a :: as) (b :: bs) = true ↔ a < b ∨ (a = b ∧ lexLE as bs = true) := by
  by_cases hab : a < b
  · simp [lexLE, hab]
  · by_cases hba : b < a
    · have hne : a ≠ b := fun h => absurd (h ▸ hba) (lt_irrefl a)
      simp [lexLE, hab, hba, hne]
    · have heq : a = b := le_antisymm (not_lt.mp hba) (not_lt.mp hab)
      simp [lexLE, hab, hba, heq]

theorem lexLE_total : ∀ l₁ l₂ : List Char, lexLE l₁ l₂ = true ∨ lexLE l₂ l₁ = true
  | [], _ => .inl rfl
  | _ :: _, [] => .inr rfl
  | a :: as, b :: bs => by
    rcases lt_trichotomy a b with h | h | h
    · exact .inl (lexLE_cons_iff.mpr (.inl h))
    · rcases lexLE_total as bs with h' | h'
      · exact .inl (lexLE_cons_iff.mpr (.inr ⟨h, h'⟩))
      · exact .inr (lexLE_cons_iff.mpr (.inr ⟨h.symm, h'⟩))
    · exact .inr (lexLE_cons_iff.mpr (.inl h))

theorem lexLE_trans : ∀ l₁ l₂ l₃ : List Char,
    lexLE l₁ l₂ = true → lexLE l₂ l₃ = true → lexLE l₁ l₃ = true
  | [], _, _, _, _ => rfl
  | _ :: _, [], _, h₁, _ => by simp [lexLE] at h₁
  | _ :: _, _ :: _, [], _, h₂ => by simp [lexLE] at h₂
  | a :: as, b :: bs, c :: cs, h₁, h₂ => by
    rcases lexLE_cons_iff.mp h₁ with hab | ⟨hab, h₁'⟩ <;>
      rcases lexLE_cons_iff.mp h₂ with hbc | ⟨hbc, h₂'⟩
    · exact lexLE_cons_iff.mpr (.inl (lt_trans hab hbc))
    · exact lexLE_cons_iff.mpr (.inl (hbc ▸ hab))
    · exact lexLE_cons_iff.mpr (.inl (hab ▸ hbc))
    · exact lexLE_cons_iff.mpr (.inr ⟨hab.trans hbc, lexLE_trans as bs cs h₁' h₂'⟩)

instance {α : Type} (key : α → List Char) : IsTotal α (byKeyLE key) :=
  ⟨fun _ _ => lexLE_total _ _⟩

instance {α : Type} (key : α → List Char) : IsTrans α (byKeyLE key) :=
  ⟨fun _ _ _ h h' => lexLE_trans _ _ _ h h'⟩

namespace Bookshelf

open List

/-! ## Data model -/

/-- The `Book` record of `catalog.py`: a frozen dataclass. -/
structure Book where
  id : String
  title : String
  author : String
  category : String
  isbn : Option String := none
deriving DecidableEq

/-- The `Shelf` record of `catalog.py`: a named mutable list of books. -/
structure Shelf where
  name : String
  books : List Book := []
deriving DecidableEq

/-- The `Room` record of `catalog.py`: an owner plus an ordered list of shelves. -/
structure Room where
  owner : String
  shelves : List Shelf := []
deriving DecidableEq

/-- The two exceptions the program can raise: `ValueError("No shelves in the
room.")` from `organize_books_by_category`, and the `AssertionError` from
`verify_constraint_same_category_same_shelf`, which carries the category and
the two conflicting shelf names. -/
inductive CatalogError where
  | noShelves : CatalogError
  | invariantViolation (category shelfA shelfB : String) : CatalogError
deriving DecidableEq

/-! ## Shelf operations -/

/-- Source `Shelf.add_books`: extend the shelf's book list. -/
def Shelf.add_books (sh : Shelf) (bs : List Book) : Shelf :=
  { sh with books := sh.books ++ bs }

/-- Source `Shelf.sort_books_by_title`: stable in-place sort of the books by
case-folded title (`self.books.sort(key=lambda b: b.title.casefold())`). -/
def Shelf.sort_books_by_title (sh : Shelf) : Shelf :=
  { sh with books := List.insertionSort (byKeyLE fun b => lowerKey b.title) sh.books }

/-- Source `Shelf.categories`: the set of categories on the shelf
(`{b.category for b in self.books}`).  Python's set iteration order is
unspecified; the set is modelled as the deduplicated list of the books'
categories — only membership is meaningful. -/
def Shelf.categories (sh : Shelf) : List String :=
  (sh.books.map Book.category).dedup

/-! ## Grouping by category (the `by_cat` dict) -/

/-- One step of the grouping loop:
`by_cat.setdefault(b.category, []).append(b)`.  A Python dict keeps keys in
insertion order, so the dict is modelled as an association list: a new key is
appended at the end, an existing key has the book appended to its list. -/
def addToGroup (acc : List (String × List Book)) (b : Book) :
    List (String × List Book) :=
  if acc.any fun p => p.1 = b.category then
    acc.map fun p => if p.1 = b.category then (p.1, p.2 ++ [b]) else p
  else
    acc ++ [(b.category, [b])]

/-- The `by_cat : Dict[str, List[Book]]` built by
`organize_books_by_category`'s first loop. -/
def groupByCategory (pile : List Book) : List (String × List Book) :=
  pile.foldl addToGroup []

/-- Dictionary access `by_cat[cat]` on the association list (`[]` when the
key is absent, which never happens in `organize_books_by_category`). -/
def lookupCat : List (String × List Book) → String → List Book
  | [], _ => []
  | p :: rest, c => if p.1 = c then p.2 else lookupCat rest c

/-! ## The allocator (`Catalog`) -/

/-- Source `self.room.shelves[j].add_books(bs)`: in-place update of the `j`-th
shelf.  (In the source `j = i % n < n` always, so the out-of-range case is
unreachable.) -/
def addToShelf : List Shelf → Nat → List Book → List Shelf
  | [], _, _ => []
  | sh :: rest, 0, bs => sh.add_books bs :: rest
  | sh :: rest, j + 1, bs => sh :: addToShelf rest j bs

/-- The round-robin loop
`for i, cat in enumerate(categories): self.room.shelves[i % n].add_books(by_cat[cat])`,
with `i` the explicit loop counter. -/
def placeGroups (byCat : List (String × List Book)) (n : Nat) :
    Nat → List String → List Shelf → List Shelf
  | _, [], shs => shs
  | i, c :: cs, shs => placeGroups byCat n (i + 1) cs (addToShelf shs (i % n) (lookupCat byCat c))

/-- Source `sorted(by_cat.keys(), key=str.lower)`: the deterministic visiting order
of the distinct categories (Python's `sorted` is stable, modelled by the
stable `List.insertionSort`). -/
def sortCategories (keys : List String) : List String :=
  List.insertionSort (byKeyLE lowerKey) keys

/-- Source `Catalog.organize_books_by_category`: raise if there are no shelves;
group the pile by category; sort the distinct categories case-insensitively;
clear every shelf; round-robin the category groups over the shelves. -/
def Catalog.organize_books_by_category (room : Room) (pile : List Book) :
    Except CatalogError Room :=
  if room.shelves.isEmpty then
    .error .noShelves
  else
    let byCat := groupByCategory pile
    let categories := sortCategories (byCat.map Prod.fst)
    let cleared := room.shelves.map fun sh => { sh with books := [] }
    .ok { room with shelves := placeGroups byCat room.shelves.length 0 categories cleared }

/-- Source `Catalog.sort_books_on_all_shelves`: sort every shelf by title. -/
def Catalog.sort_books_on_all_shelves (room : Room) : Room :=
  { room with shelves := room.shelves.map Shelf.sort_books_by_title }

/-- The `seen : Dict[str, str]` of the invariant check, modelled as a
finite map. -/
def Seen : Type := String → Option String

/-- Assignment `seen[cat] = name`. -/
def Seen.update (seen : Seen) (cat name : String) : Seen :=
  fun x => if x = cat then some name else seen x

/-- The inner loop of `verify_constraint_same_category_same_shelf` for one
shelf: for each category, raise if `cat in seen and seen[cat] != shelf.name`,
then set `seen[cat] = shelf.name`. -/
def checkShelfCats (name : String) : Seen → List String → Except CatalogError Seen
  | seen, [] => .ok seen
  | seen, c :: cs =>
    match seen c with
    | some prev =>
      if prev ≠ name then .error (.invariantViolation c prev name)
      else checkShelfCats name (seen.update c name) cs
    | none => checkShelfCats name (seen.update c name) cs

/-- The outer loop of `verify_constraint_same_category_same_shelf` over the
shelves, threading `seen`. -/
def verifyAux : Seen → List Shelf → Except CatalogError Unit
  | _, [] => .ok ()
  | seen, sh :: rest =>
    match checkShelfCats sh.name seen sh.categories with
    | .error e => .error e
    | .ok seen' => verifyAux seen' rest

/-- Source `Catalog.verify_constraint_same_category_same_shelf`: each category must
appear on at most one (name of a) shelf. -/
def Catalog.verify_constraint_same_category_same_shelf (room : Room) :
    Except CatalogError Unit :=
  verifyAux (fun _ => none) room.shelves

/-! ## The `demo()` data -/

/-- The room built in `demo()`. -/
def demoRoom : Room :=
  { owner := "Bob", shelves := [{ name := "Left" }, { name := "Right" }, { name := "Top" }] }

/-- The pile built in `demo()`. -/
def demoPile : List Book :=
  [ { id := "b001", title := "A Tale of Two Cities", author := "Charles Dickens",
      category := "Classic" },
    { id := "b002", title := "Brave New World", author := "Aldous Huxley",
      category := "Dystopian" },
    { id := "b003", title := "The Pragmatic Programmer", author := "Andrew Hunt",
      category := "Programming" },
    { id := "b004", title := "Clean Code", author := "Robert C. Martin",
      category := "Programming" },
    { id := "b005", title := "Do Androids Dream of Electric Sheep?", author := "Philip K. Dick",
      category := "Sci-Fi" },
    { id := "b006", title := "I, Robot", author := "Isaac Asimov",
      category := "Sci-Fi" },
    { id := "b007", title := "The Name of the Rose", author := "Umberto Eco",
      category := "Mystery" } ]


/-! ## Lemmas about `addToShelf` and `placeGroups` -/

theorem addToShelf_length : ∀ (shs : List Shelf) (j : Nat) (bs : List Book),
    (addToShelf shs j bs).length = shs.length
  | [], _, _ => rfl
  | _ :: _, 0, _ => rfl
  | _ :: rest, j + 1, bs => by simp [addToShelf, addToShelf_length rest j bs]

theorem addToShelf_map_name : ∀ (shs : List Shelf) (j : Nat) (bs : List Book),
    (addToShelf shs j bs).map Shelf.name = shs.map Shelf.name
  | [], _, _ => rfl
  | _ :: _, 0, _ => rfl
  | _ :: rest, j + 1, bs => by simp [addToShelf, addToShelf_map_name rest j bs]

theorem addToShelf_getElem? : ∀ (shs : List Shelf) (j : Nat) (bs : List Book) (k : Nat),
    (addToShelf shs j bs)[k]? =
      if k = j then shs[k]?.map (fun sh => sh.add_books bs) else shs[k]?
  | [], j, bs, k => by simp [addToShelf]
  | sh :: rest, 0, bs, 0 => by simp [addToShelf]
  | sh :: rest, 0, bs, k + 1 => by simp [addToShelf]
  | sh :: rest, j + 1, bs, 0 => by simp [addToShelf]
  | sh :: rest, j + 1, bs, k + 1 => by
    simp only [addToShelf, List.getElem?_cons_succ, addToShelf_getElem? rest j bs k,
      Nat.succ_eq_add_one, Nat.add_right_cancel_iff]

theorem addToShelf_flatten_perm (shs : List Shelf) (j : Nat) (bs : List Book)
    (hj : j < shs.length) :
    ((addToShelf shs j bs).map Shelf.books).flatten.Perm
      ((shs.map Shelf.books).flatten ++ bs) := by
  induction shs generalizing j with
  | nil => simp at hj
  | cons sh rest ih =>
    cases j with
    | zero =>
      simp only [addToShelf, List.map_cons, List.flatten_cons, Shelf.add_books,
        List.append_assoc]
      exact List.Perm.append_left _ List.perm_append_comm
    | succ j =>
      simp only [addToShelf, List.map_cons, List.flatten_cons, List.append_assoc]
      exact (ih j (Nat.lt_of_succ_lt_succ hj)).append_left sh.books

/-- The books that the round-robin loop starting at counter `i` adds to shelf
`j`: the concatenation of the groups of the categories whose counter hits
residue `j` modulo `n`. -/
def assignedBooks (byCat : List (String × List Book)) (n j : Nat) :
    Nat → List String → List Book
  | _, [] => []
  | i, c :: cs =>
    (if i % n = j then lookupCat byCat c else []) ++ assignedBooks byCat n j (i + 1) cs

theorem placeGroups_getElem? (byCat : List (String × List Book)) (n : Nat)
    (cs : List String) :
    ∀ (i : Nat) (shs : List Shelf) (j : Nat),
      (placeGroups byCat n i cs shs)[j]? =
        shs[j]?.map fun sh => sh.add_books (assignedBooks byCat n j i cs) := by
  induction cs with
  | nil =>
    intro i shs j
    simp [placeGroups, assignedBooks, Shelf.add_books]
  | cons c cs ih =>
    intro i shs j
    simp only [placeGroups, assignedBooks, ih (i + 1), addToShelf_getElem?]
    by_cases hij : i % n = j
    · subst hij
      simp only [if_pos rfl, Option.map_map]
      cases shs[i % n]? with
      | none => rfl
      | some sh => simp [Shelf.add_books, List.append_assoc]
    · rw [if_neg (fun h => hij h.symm), if_neg hij]
      simp

theorem placeGroups_length (byCat : List (String × List Book)) (n : Nat)
    (cs : List String) :
    ∀ (i : Nat) (shs : List Shelf), (placeGroups byCat n i cs shs).length = shs.length := by
  induction cs with
  | nil => intro i shs; rfl
  | cons c cs ih => intro i shs; simp [placeGroups, ih (i + 1), addToShelf_length]

theorem placeGroups_map_name (byCat : List (String × List Book)) (n : Nat)
    (cs : List String) :
    ∀ (i : Nat) (shs : List Shelf),
      (placeGroups byCat n i cs shs).map Shelf.name = shs.map Shelf.name := by
  induction cs with
  | nil => intro i shs; rfl
  | cons c cs ih => intro i shs; simp [placeGroups, ih (i + 1), addToShelf_map_name]

theorem placeGroups_flatten_perm (byCat : List (String × List Book)) (n : Nat)
    (hn : 0 < n) (cs : List String) :
    ∀ (i : Nat) (shs : List Shelf), shs.length = n →
      ((placeGroups byCat n i cs shs).map Shelf.books).flatten.Perm
        ((shs.map Shelf.books).flatten ++ (cs.map (lookupCat byCat)).flatten) := by
  induction cs with
  | nil => intro i shs _; simp [placeGroups]
  | cons c cs ih =>
    intro i shs hlen
    have hmod : i % n < shs.length := by rw [hlen]; exact Nat.mod_lt i hn
    have hlen' : (addToShelf shs (i % n) (lookupCat byCat c)).length = n :=
      (addToShelf_length shs (i % n) (lookupCat byCat c)).trans hlen
    calc ((placeGroups byCat n (i + 1) cs (addToShelf shs (i % n) (lookupCat byCat c))).map
            Shelf.books).flatten
        ~ ((addToShelf shs (i % n) (lookupCat byCat c)).map Shelf.books).flatten ++
            (cs.map (lookupCat byCat)).flatten := ih (i + 1) _ hlen'
      _ ~ ((shs.map Shelf.books).flatten ++ lookupCat byCat c) ++
            (cs.map (lookupCat byCat)).flatten :=
          (addToShelf_flatten_perm shs (i % n) (lookupCat byCat c) hmod).append_right _
      _ = (shs.map Shelf.books).flatten ++ ((c :: cs).map (lookupCat byCat)).flatten := by
          simp [List.append_assoc]


/-! ## Lemmas about `groupByCategory` -/

theorem addToGroup_map_fst (acc : List (String × List Book)) (b : Book) :
    (addToGroup acc b).map Prod.fst =
      if b.category ∈ acc.map Prod.fst then acc.map Prod.fst
      else acc.map Prod.fst ++ [b.category] := by
  unfold addToGroup
  by_cases hmem : b.category ∈ acc.map Prod.fst
  · have hany : (acc.any fun p => p.1 = b.category) = true := by
      rcases List.mem_map.mp hmem with ⟨p, hp, hpc⟩
      exact List.any_eq_true.mpr ⟨p, hp, decide_eq_true hpc⟩
    rw [if_pos hany, if_pos hmem]
    rw [List.map_map]
    apply List.map_congr_left
    intro p _
    by_cases hpc : p.1 = b.category <;> simp [hpc]
  · have hany : (acc.any fun p => p.1 = b.category) = false := by
      rw [List.any_eq_false]
      intro p hp
      simp only [decide_eq_true_eq]
      exact fun hpc => hmem (List.mem_map.mpr ⟨p, hp, hpc⟩)
    rw [if_neg (by simp [hany]), if_neg hmem]
    simp

theorem mem_fst_addToGroup {acc : List (String × List Book)} {b : Book} {c : String} :
    c ∈ (addToGroup acc b).map Prod.fst ↔ c ∈ acc.map Prod.fst ∨ c = b.category := by
  rw [addToGroup_map_fst]
  by_cases hmem : b.category ∈ acc.map Prod.fst
  · rw [if_pos hmem]
    constructor
    · exact Or.inl
    · rintro (h | rfl)
      · exact h
      · exact hmem
  · rw [if_neg hmem]
    simp

theorem addToGroup_fst_nodup {acc : List (String × List Book)} (b : Book)
    (h : (acc.map Prod.fst).Nodup) : ((addToGroup acc b).map Prod.fst).Nodup := by
  rw [addToGroup_map_fst]
  by_cases hmem : b.category ∈ acc.map Prod.fst
  · rwa [if_pos hmem]
  · rw [if_neg hmem]
    simp [List.nodup_append, h, hmem]

theorem groupByCategory_fst_nodup (pile : List Book) :
    ((groupByCategory pile).map Prod.fst).Nodup := by
  suffices h : ∀ (l : List Book) (acc : List (String × List Book)),
      (acc.map Prod.fst).Nodup → ((l.foldl addToGroup acc).map Prod.fst).Nodup by
    exact h pile [] List.nodup_nil
  intro l
  induction l with
  | nil => intro acc h; exact h
  | cons b l ih => intro acc h; exact ih _ (addToGroup_fst_nodup b h)

theorem mem_fst_groupByCategory {pile : List Book} {c : String} :
    c ∈ (groupByCategory pile).map Prod.fst ↔ ∃ b ∈ pile, b.category = c := by
  suffices h : ∀ (l : List Book) (acc : List (String × List Book)),
      (c ∈ (l.foldl addToGroup acc).map Prod.fst ↔
        c ∈ acc.map Prod.fst ∨ ∃ b ∈ l, b.category = c) by
    rw [groupByCategory, h pile []]
    simp
  intro l
  induction l with
  | nil => intro acc; simp
  | cons b l ih =>
    intro acc
    rw [List.foldl_cons, ih, mem_fst_addToGroup]
    constructor
    · rintro ((h | h) | h)
      · exact .inl h
      · exact .inr ⟨b, List.mem_cons_self b l, h.symm⟩
      · rcases h with ⟨b', hb', hbc⟩
        exact .inr ⟨b', List.mem_cons_of_mem b hb', hbc⟩
    · rintro (h | ⟨b', hb', hbc⟩)
      · exact .inl (.inl h)
      · rcases List.mem_cons.mp hb' with rfl | hb'
        · exact .inl (.inr hbc.symm)
        · exact .inr ⟨b', hb', hbc⟩

/-- Every book stored under a key of the `by_cat` dict has that key as its
category. -/
def GroupInv (acc : List (String × List Book)) : Prop :=
  ∀ p ∈ acc, ∀ b ∈ p.2, b.category = p.1

theorem addToGroup_inv {acc : List (String × List Book)} {b : Book}
    (h : GroupInv acc) : GroupInv (addToGroup acc b) := by
  unfold addToGroup
  split
  · intro p hp
    rcases List.mem_map.mp hp with ⟨q, hq, rfl⟩
    by_cases hqc : q.1 = b.category
    · rw [if_pos hqc]
      intro b' hb'
      rcases List.mem_append.mp hb' with hb' | hb'
      · exact h q hq b' hb'
      · rw [List.mem_singleton.mp hb', hqc]
    · rw [if_neg hqc]
      exact h q hq
  · intro p hp
    rcases List.mem_append.mp hp with hp | hp
    · exact h p hp
    · rw [List.mem_singleton.mp hp]
      intro b' hb'
      rw [List.mem_singleton.mp hb']
  
theorem groupByCategory_inv (pile : List Book) : GroupInv (groupByCategory pile) := by
  suffices h : ∀ (l : List Book) (acc : List (String × List Book)),
      GroupInv acc → GroupInv (l.foldl addToGroup acc) by
    exact h pile [] (by intro p hp; simp at hp)
  intro l
  induction l with
  | nil => intro acc h; exact h
  | cons b l ih => intro acc h; exact ih _ (addToGroup_inv h)

theorem update_snd_flatten_perm (b : Book) :
    ∀ (acc : List (String × List Book)), b.category ∈ acc.map Prod.fst →
      (acc.map Prod.fst).Nodup →
      ((acc.map fun p => if p.1 = b.category then (p.1, p.2 ++ [b]) else p).map
          Prod.snd).flatten.Perm ((acc.map Prod.snd).flatten ++ [b])
  | [], hmem, _ => by simp at hmem
  | p :: rest, hmem, hnd => by
    by_cases hpc : p.1 = b.category
    · have hnotin : ∀ q ∈ rest, q.1 ≠ b.category := by
        intro q hq hqc
        have : p.1 ∈ rest.map Prod.fst := by
          rw [hpc, ← hqc]; exact List.mem_map.mpr ⟨q, hq, rfl⟩
        rw [List.map_cons] at hnd
        exact (List.nodup_cons.mp hnd).1 this
      have hrest : rest.map (fun p => if p.1 = b.category then (p.1, p.2 ++ [b]) else p) =
          rest := by
        have : rest.map (fun p => if p.1 = b.category then (p.1, p.2 ++ [b]) else p) =
            rest.map id := by
          apply List.map_congr_left
          intro q hq
          rw [if_neg (hnotin q hq)]
          rfl
        simpa using this
      rw [List.map_cons, hrest, if_pos hpc]
      simp only [List.map_cons, List.flatten_cons, List.append_assoc]
      exact List.Perm.append_left _ List.perm_append_comm
    · rw [List.map_cons] at hmem hnd
      have hmem' : b.category ∈ rest.map Prod.fst := by
        rcases List.mem_cons.mp hmem with h | h
        · exact absurd h.symm hpc
        · exact h
      have hnd' : (rest.map Prod.fst).Nodup := (List.nodup_cons.mp hnd).2
      rw [List.map_cons, if_neg hpc]
      simp only [List.map_cons, List.flatten_cons, List.append_assoc]
      exact List.Perm.append_left _ (by
        simpa using update_snd_flatten_perm b rest hmem' hnd')

theorem addToGroup_snd_flatten_perm {acc : List (String × List Book)} (b : Book)
    (hnd : (acc.map Prod.fst).Nodup) :
    ((addToGroup acc b).map Prod.snd).flatten.Perm ((acc.map Prod.snd).flatten ++ [b]) := by
  unfold addToGroup
  by_cases hmem : b.category ∈ acc.map Prod.fst
  · have hany : (acc.any fun p => p.1 = b.category) = true := by
      rcases List.mem_map.mp hmem with ⟨p, hp, hpc⟩
      exact List.any_eq_true.mpr ⟨p, hp, decide_eq_true hpc⟩
    rw [if_pos hany]
    exact update_snd_flatten_perm b acc hmem hnd
  · have hany : (acc.any fun p => p.1 = b.category) = false := by
      rw [List.any_eq_false]
      intro p hp
      simp only [decide_eq_true_eq]
      exact fun hpc => hmem (List.mem_map.mpr ⟨p, hp, hpc⟩)
    rw [if_neg (by simp [hany])]
    simp

theorem groupByCategory_snd_flatten_perm (pile : List Book) :
    ((groupByCategory pile).map Prod.snd).flatten.Perm pile := by
  suffices h : ∀ (l : List Book) (acc : List (String × List Book)),
      (acc.map Prod.fst).Nodup →
      ((l.foldl addToGroup acc).map Prod.snd).flatten.Perm
        ((acc.map Prod.snd).flatten ++ l) by
    simpa using h pile [] List.nodup_nil
  intro l
  induction l with
  | nil => intro acc _; simp
  | cons b l ih =>
    intro acc hnd
    rw [List.foldl_cons]
    calc ((l.foldl addToGroup (addToGroup acc b)).map Prod.snd).flatten
        ~ ((addToGroup acc b).map Prod.snd).flatten ++ l := ih _ (addToGroup_fst_nodup b hnd)
      _ ~ ((acc.map Prod.snd).flatten ++ [b]) ++ l :=
          (addToGroup_snd_flatten_perm b hnd).append_right l
      _ = (acc.map Prod.snd).flatten ++ (b :: l) := by simp

theorem lookupCat_mem : ∀ (byCat : List (String × List Book)) (c : String),
    c ∈ byCat.map Prod.fst → (c, lookupCat byCat c) ∈ byCat
  | [], c, h => by simp at h
  | p :: rest, c, h => by
    rw [lookupCat]
    by_cases hpc : p.1 = c
    · rw [if_pos hpc]
      exact List.mem_cons.mpr (.inl (by rw [← hpc]))
    · rw [if_neg hpc]
      have : c ∈ rest.map Prod.fst := by
        rw [List.map_cons] at h
        rcases List.mem_cons.mp h with h' | h'
        · exact absurd h'.symm hpc
        · exact h'
      exact List.mem_cons_of_mem p (lookupCat_mem rest c this)

theorem map_lookupCat_fst : ∀ (byCat : List (String × List Book)),
    (byCat.map Prod.fst).Nodup →
    (byCat.map Prod.fst).map (lookupCat byCat) = byCat.map Prod.snd
  | [], _ => rfl
  | p :: rest, hnd => by
    rw [List.map_cons] at hnd
    have hp1 : p.1 ∉ rest.map Prod.fst := (List.nodup_cons.mp hnd).1
    have hnd' : (rest.map Prod.fst).Nodup := (List.nodup_cons.mp hnd).2
    have hcongr : (rest.map Prod.fst).map (lookupCat (p :: rest)) =
        (rest.map Prod.fst).map (lookupCat rest) := by
      apply List.map_congr_left
      intro c hc
      have hpc : p.1 ≠ c := fun h => hp1 (h ▸ hc)
      simp only [lookupCat, if_neg hpc]
    calc ((p :: rest).map Prod.fst).map (lookupCat (p :: rest))
        = lookupCat (p :: rest) p.1 :: (rest.map Prod.fst).map (lookupCat (p :: rest)) := by
          simp only [List.map_cons]
      _ = p.2 :: (rest.map Prod.fst).map (lookupCat rest) := by
          rw [hcongr]
          simp [lookupCat]
      _ = p.2 :: rest.map Prod.snd := by rw [map_lookupCat_fst rest hnd']
      _ = (p :: rest).map Prod.snd := by simp


/-! ## Characterization of `organize_books_by_category` -/

/-- The final shelf list computed by a successful
`organize_books_by_category`. -/
def organizedShelves (room : Room) (pile : List Book) : List Shelf :=
  placeGroups (groupByCategory pile) room.shelves.length 0
    (sortCategories ((groupByCategory pile).map Prod.fst))
    (room.shelves.map fun sh => { sh with books := [] })

theorem organize_eq_error (room : Room) (pile : List Book) (h : room.shelves = []) :
    Catalog.organize_books_by_category room pile = .error .noShelves := by
  rw [Catalog.organize_books_by_category, if_pos]
  simp [h]

theorem organize_eq_ok (room : Room) (pile : List Book) (h : room.shelves ≠ []) :
    Catalog.organize_books_by_category room pile =
      .ok { room with shelves := organizedShelves room pile } := by
  have hne : ¬(room.shelves.isEmpty = true) := by simp [List.isEmpty_iff, h]
  rw [Catalog.organize_books_by_category, if_neg hne]
  rfl

theorem organize_ok_elim {room room' : Room} {pile : List Book}
    (h : Catalog.organize_books_by_category room pile = .ok room') :
    room.shelves ≠ [] ∧ room' = { room with shelves := organizedShelves room pile } := by
  by_cases hsh : room.shelves = []
  · rw [organize_eq_error room pile hsh] at h
    exact absurd h (by simp)
  · rw [organize_eq_ok room pile hsh] at h
    exact ⟨hsh, (Except.ok.injEq _ _ ▸ h).symm⟩

theorem organizedShelves_getElem? (room : Room) (pile : List Book) (j : Nat) :
    (organizedShelves room pile)[j]? =
      room.shelves[j]?.map fun sh =>
        { sh with
          books := assignedBooks (groupByCategory pile) room.shelves.length j 0
            (sortCategories ((groupByCategory pile).map Prod.fst)) } := by
  rw [organizedShelves, placeGroups_getElem?, List.getElem?_map, Option.map_map]
  apply congrArg (fun f => Option.map f room.shelves[j]?)
  funext sh
  simp [Shelf.add_books]

theorem organizedShelves_flatten_perm (room : Room) (pile : List Book)
    (h : room.shelves ≠ []) :
    ((organizedShelves room pile).map Shelf.books).flatten.Perm pile := by
  have hn : 0 < room.shelves.length := List.length_pos.mpr h
  have hlen : (room.shelves.map fun sh => { sh with books := ([] : List Book) }).length =
      room.shelves.length := by simp
  have hstep := placeGroups_flatten_perm (groupByCategory pile) room.shelves.length hn
    (sortCategories ((groupByCategory pile).map Prod.fst)) 0
    (room.shelves.map fun sh => { sh with books := [] }) hlen
  have hcleared :
      (((room.shelves.map fun sh => { sh with books := ([] : List Book) }).map
        Shelf.books).flatten : List Book) = [] := by
    rw [List.map_map]
    have : (Shelf.books ∘ fun sh : Shelf => { sh with books := ([] : List Book) }) =
        fun _ => ([] : List Book) := by
      funext sh
      rfl
    rw [this]
    simp [List.flatten_eq_nil_iff]
  rw [organizedShelves]
  calc ((placeGroups (groupByCategory pile) room.shelves.length 0
          (sortCategories ((groupByCategory pile).map Prod.fst))
          (room.shelves.map fun sh => { sh with books := [] })).map Shelf.books).flatten
      ~ (((room.shelves.map fun sh => { sh with books := [] }).map Shelf.books).flatten ++
          ((sortCategories ((groupByCategory pile).map Prod.fst)).map
            (lookupCat (groupByCategory pile))).flatten) := hstep
    _ = ((sortCategories ((groupByCategory pile).map Prod.fst)).map
          (lookupCat (groupByCategory pile))).flatten := by rw [hcleared, List.nil_append]
    _ ~ (((groupByCategory pile).map Prod.fst).map
          (lookupCat (groupByCategory pile))).flatten :=
        ((List.perm_insertionSort (byKeyLE lowerKey) _).map _).flatten
    _ = ((groupByCategory pile).map Prod.snd).flatten := by
        rw [map_lookupCat_fst _ (groupByCategory_fst_nodup pile)]
    _ ~ pile := groupByCategory_snd_flatten_perm pile

theorem organizedShelves_map_name (room : Room) (pile : List Book) :
    (organizedShelves room pile).map Shelf.name = room.shelves.map Shelf.name := by
  rw [organizedShelves, placeGroups_map_name, List.map_map]
  rfl

theorem organizedShelves_length (room : Room) (pile : List Book) :
    (organizedShelves room pile).length = room.shelves.length := by
  rw [organizedShelves, placeGroups_length]
  simp


/-! ## Characterization of the invariant check -/

theorem checkShelfCats_ok_seen (nm : String) : ∀ (cs : List String) (seen seen' : Seen),
    checkShelfCats nm seen cs = .ok seen' →
    ∀ x, seen' x = if x ∈ cs then some nm else seen x
  | [], seen, seen', h, x => by
    rw [checkShelfCats] at h
    cases h
    simp
  | c :: cs, seen, seen', h, x => by
    rw [checkShelfCats] at h
    have hupd : checkShelfCats nm (seen.update c nm) cs = .ok seen' →
        seen' x = if x ∈ c :: cs then some nm else seen x := by
      intro h'
      have ih := checkShelfCats_ok_seen nm cs _ _ h' x
      by_cases hxcs : x ∈ cs
      · rw [ih, if_pos hxcs, if_pos (List.mem_cons_of_mem c hxcs)]
      · by_cases hxc : x = c
        · rw [ih, if_neg hxcs, if_pos (hxc ▸ List.mem_cons_self c cs)]
          show (if x = c then some nm else seen x) = some nm
          rw [if_pos hxc]
        · rw [ih, if_neg hxcs, if_neg (by simp [hxc, hxcs])]
          show (if x = c then some nm else seen x) = seen x
          rw [if_neg hxc]
    split at h
    · next prev heq =>
      split at h
      · exact absurd h (by simp)
      · exact hupd h
    · exact hupd h

theorem checkShelfCats_ok_cond (nm : String) : ∀ (cs : List String) (seen seen' : Seen),
    checkShelfCats nm seen cs = .ok seen' →
    ∀ c ∈ cs, ∀ p, seen c = some p → p = nm
  | [], _, _, _, c, hc => by simp at hc
  | c :: cs, seen, seen', h, c', hc' => by
    rw [checkShelfCats] at h
    intro p hp
    have hrec : checkShelfCats nm (seen.update c nm) cs = .ok seen' → c' ≠ c → p = nm := by
      intro h' hcc
      have hmem : c' ∈ cs := (List.mem_cons.mp hc').resolve_left hcc
      refine checkShelfCats_ok_cond nm cs _ _ h' c' hmem p ?_
      show (if c' = c then some nm else seen c') = some p
      rw [if_neg hcc]
      exact hp
    split at h
    · next prev heq =>
      split at h
      · exact absurd h (by simp)
      · next hpn =>
        push_neg at hpn
        by_cases hcc : c' = c
        · subst hcc
          rw [heq] at hp
          cases hp
          exact hpn
        · exact hrec h hcc
    · next heq =>
      by_cases hcc : c' = c
      · subst hcc
        rw [heq] at hp
        cases hp
      · exact hrec h hcc

theorem checkShelfCats_ok_of (nm : String) : ∀ (cs : List String) (seen : Seen),
    (∀ c ∈ cs, ∀ p, seen c = some p → p = nm) →
    ∃ seen', checkShelfCats nm seen cs = .ok seen'
  | [], seen, _ => ⟨seen, rfl⟩
  | c :: cs, seen, hcond => by
    have hupdcond : ∀ c' ∈ cs, ∀ p, seen.update c nm c' = some p → p = nm := by
      intro c' hc' p hp
      by_cases hcc : c' = c
      · have hv : Seen.update seen c nm c' = some nm := by
          show (if c' = c then some nm else seen c') = some nm
          rw [if_pos hcc]
        rw [hv] at hp
        cases hp
        rfl
      · have hv : Seen.update seen c nm c' = seen c' := by
          show (if c' = c then some nm else seen c') = seen c'
          rw [if_neg hcc]
        rw [hv] at hp
        exact hcond c' (List.mem_cons_of_mem c hc') p hp
    rcases checkShelfCats_ok_of nm cs (seen.update c nm) hupdcond with ⟨seen', hok⟩
    refine ⟨seen', ?_⟩
    rw [checkShelfCats]
    split
    · next prev heq =>
      have hpn : prev = nm := hcond c (List.mem_cons_self c cs) prev heq
      rw [if_neg (by simp [hpn])]
      exact hok
    · exact hok

theorem checkShelfCats_error (nm : String) : ∀ (cs : List String) (seen : Seen)
    (e : CatalogError), checkShelfCats nm seen cs = .error e →
    ∃ c prev, e = .invariantViolation c prev nm ∧ c ∈ cs ∧ seen c = some prev ∧ prev ≠ nm
  | [], _, e, h => by
    rw [checkShelfCats] at h
    exact absurd h (by simp)
  | c :: cs, seen, e, h => by
    rw [checkShelfCats] at h
    have hrec : checkShelfCats nm (seen.update c nm) cs = .error e →
        ∃ c' prev, e = .invariantViolation c' prev nm ∧ c' ∈ c :: cs ∧
          seen c' = some prev ∧ prev ≠ nm := by
      intro h'
      rcases checkShelfCats_error nm cs _ e h' with ⟨c', prev, he, hmem, hseen, hpn⟩
      by_cases hcc : c' = c
      · exfalso
        have hv : Seen.update seen c nm c' = some nm := by
          show (if c' = c then some nm else seen c') = some nm
          rw [if_pos hcc]
        rw [hv] at hseen
        cases hseen
        exact hpn rfl
      · have hv : Seen.update seen c nm c' = seen c' := by
          show (if c' = c then some nm else seen c') = seen c'
          rw [if_neg hcc]
        rw [hv] at hseen
        exact ⟨c', prev, he, List.mem_cons_of_mem c hmem, hseen, hpn⟩
    split at h
    · next prev heq =>
      split at h
      · next hpn =>
        refine ⟨c, prev, ?_, List.mem_cons_self c cs, heq, hpn⟩
        cases h
        rfl
      · exact hrec h
    · exact hrec h

/-- Compatibility of two shelves for the invariant check: any category on
both must see equal shelf names. -/
def shelvesCompat (s1 s2 : Shelf) : Prop :=
  ∀ c, c ∈ s1.categories → c ∈ s2.categories → s1.name = s2.name

theorem verifyAux_ok_iff : ∀ (shs : List Shelf) (seen : Seen),
    verifyAux seen shs = .ok () ↔
      ((∀ sh ∈ shs, ∀ c ∈ sh.categories, ∀ p, seen c = some p → p = sh.name) ∧
        shs.Pairwise shelvesCompat)
  | [], seen => by
    rw [verifyAux]
    simp
  | sh :: rest, seen => by
    rw [verifyAux]
    constructor
    · intro h
      cases hcheck : checkShelfCats sh.name seen sh.categories with
      | error e => rw [hcheck] at h; exact absurd h (by simp)
      | ok seen' =>
        rw [hcheck] at h
        have ih := (verifyAux_ok_iff rest seen').mp h
        have hseen' := checkShelfCats_ok_seen sh.name sh.categories seen seen' hcheck
        have hcond := checkShelfCats_ok_cond sh.name sh.categories seen seen' hcheck
        refine ⟨?_, ?_⟩
        · intro sh' hsh' c hc p hp
          rcases List.mem_cons.mp hsh' with rfl | hsh'
          · exact hcond c hc p hp
          · by_cases hcs : c ∈ sh.categories
            · have h1 : seen' c = some sh.name := by rw [hseen' c, if_pos hcs]
              have h2 : sh.name = sh'.name := ih.1 sh' hsh' c hc sh.name h1
              exact (hcond c hcs p hp).trans h2
            · have h1 : seen' c = some p := by rw [hseen' c, if_neg hcs]; exact hp
              exact ih.1 sh' hsh' c hc p h1
        · rw [List.pairwise_cons]
          refine ⟨?_, ih.2⟩
          intro sh' hsh' c hc hc'
          have h1 : seen' c = some sh.name := by rw [hseen' c, if_pos hc]
          exact ih.1 sh' hsh' c hc' sh.name h1
    · rintro ⟨hcond, hpw⟩
      rcases List.pairwise_cons.mp hpw with ⟨hcompat, hpwrest⟩
      rcases checkShelfCats_ok_of sh.name sh.categories seen
          (hcond sh (List.mem_cons_self sh rest)) with ⟨seen', hok⟩
      rw [hok]
      apply (verifyAux_ok_iff rest seen').mpr
      have hseen' := checkShelfCats_ok_seen sh.name sh.categories seen seen' hok
      refine ⟨?_, hpwrest⟩
      intro sh' hsh' c hc p hp
      rw [hseen' c] at hp
      by_cases hcs : c ∈ sh.categories
      · rw [if_pos hcs] at hp
        cases hp
        exact hcompat sh' hsh' c hcs hc
      · rw [if_neg hcs] at hp
        exact hcond sh' (List.mem_cons_of_mem sh hsh') c hc p hp

theorem verify_ok_iff (room : Room) :
    Catalog.verify_constraint_same_category_same_shelf room = .ok () ↔
      room.shelves.Pairwise shelvesCompat := by
  rw [Catalog.verify_constraint_same_category_same_shelf, verifyAux_ok_iff]
  constructor
  · exact fun h => h.2
  · refine fun h => ⟨?_, h⟩
    intro sh _ c _ p hp
    simp at hp

theorem verifyAux_error : ∀ (shs : List Shelf) (seen : Seen) (e : CatalogError),
    verifyAux seen shs = .error e →
    ∃ c prev nm, e = .invariantViolation c prev nm ∧ prev ≠ nm ∧
      (∃ sh ∈ shs, sh.name = nm ∧ c ∈ sh.categories) ∧
      (seen c = some prev ∨ ∃ sh ∈ shs, sh.name = prev ∧ c ∈ sh.categories)
  | [], seen, e, h => by
    rw [verifyAux] at h
    exact absurd h (by simp)
  | sh :: rest, seen, e, h => by
    rw [verifyAux] at h
    cases hcheck : checkShelfCats sh.name seen sh.categories with
    | error e' =>
      rw [hcheck] at h
      cases h
      rcases checkShelfCats_error sh.name sh.categories seen _ hcheck with
        ⟨c, prev, he, hmem, hseen, hpn⟩
      exact ⟨c, prev, sh.name, he, hpn,
        ⟨sh, List.mem_cons_self sh rest, rfl, hmem⟩, .inl hseen⟩
    | ok seen' =>
      rw [hcheck] at h
      rcases verifyAux_error rest seen' e h with
        ⟨c, prev, nm, he, hpn, ⟨sh₂, hsh₂, hname₂, hc₂⟩, hdisj⟩
      have hseen' := checkShelfCats_ok_seen sh.name sh.categories seen seen' hcheck
      refine ⟨c, prev, nm, he, hpn,
        ⟨sh₂, List.mem_cons_of_mem sh hsh₂, hname₂, hc₂⟩, ?_⟩
      rcases hdisj with hseenc | ⟨sh₁, hsh₁, hname₁, hc₁⟩
      · rw [hseen' c] at hseenc
        by_cases hcs : c ∈ sh.categories
        · rw [if_pos hcs] at hseenc
          cases hseenc
          exact .inr ⟨sh, List.mem_cons_self sh rest, rfl, hcs⟩
        · rw [if_neg hcs] at hseenc
          exact .inl hseenc
      · exact .inr ⟨sh₁, List.mem_cons_of_mem sh hsh₁, hname₁, hc₁⟩

theorem verify_error (room : Room) (e : CatalogError)
    (h : Catalog.verify_constraint_same_category_same_shelf room = .error e) :
    ∃ c prev nm, e = .invariantViolation c prev nm ∧ prev ≠ nm ∧
      (∃ sh ∈ room.shelves, sh.name = prev ∧ c ∈ sh.categories) ∧
      (∃ sh ∈ room.shelves, sh.name = nm ∧ c ∈ sh.categories) := by
  rcases verifyAux_error room.shelves _ e h with
    ⟨c, prev, nm, he, hpn, hnm, hdisj⟩
  rcases hdisj with hseen | hprev
  · cases hseen
  · exact ⟨c, prev, nm, he, hpn, hprev, hnm⟩

theorem verify_not_ok_iff_error (room : Room) :
    (¬ Catalog.verify_constraint_same_category_same_shelf room = .ok ()) ↔
      ∃ e, Catalog.verify_constraint_same_category_same_shelf room = .error e := by
  cases hv : Catalog.verify_constraint_same_category_same_shelf room with
  | error e => simp
  | ok u => cases u; simp


/-! ## Stability of the key-based sorts -/

theorem byKeyLE_of_key_eq {α : Type} (key : α → List Char) {x y : α}
    (h : key x = key y) : byKeyLE key x y := by
  rw [byKeyLE, h]
  exact lexLE_refl _

theorem key_ne_of_not_byKeyLE {α : Type} (key : α → List Char) {x y : α}
    (h : ¬ byKeyLE key x y) : key x ≠ key y :=
  fun he => h (byKeyLE_of_key_eq key he)

theorem filter_orderedInsert_byKey {α : Type} (key : α → List Char) (k : List Char) (a : α) :
    ∀ l : List α,
      (List.orderedInsert (byKeyLE key) a l).filter (fun x => key x = k) =
        if key a = k then a :: l.filter (fun x => key x = k)
        else l.filter (fun x => key x = k)
  | [] => by
    by_cases h : key a = k <;> simp [List.orderedInsert, h]
  | b :: l => by
    by_cases hr : byKeyLE key a b
    · rw [List.orderedInsert, if_pos hr]
      by_cases ha : key a = k <;> simp [List.filter_cons, ha]
    · rw [List.orderedInsert, if_neg hr]
      have hne : key a ≠ key b := key_ne_of_not_byKeyLE key hr
      rw [List.filter_cons, filter_orderedInsert_byKey key k a l]
      by_cases ha : key a = k
      · have hb : ¬ (key b = k) := fun hbk => hne (ha.trans hbk.symm)
        simp [ha, hb, List.filter_cons]
      · by_cases hb : key b = k <;> simp [ha, hb, List.filter_cons]

theorem filter_insertionSort_byKey {α : Type} (key : α → List Char) (k : List Char) :
    ∀ l : List α,
      (List.insertionSort (byKeyLE key) l).filter (fun x => key x = k) =
        l.filter (fun x => key x = k)
  | [] => rfl
  | a :: l => by
    rw [List.insertionSort, filter_orderedInsert_byKey key k a,
      filter_insertionSort_byKey key k l, List.filter_cons]
    by_cases ha : key a = k <;> simp [ha]

/-! ## Categories of the organized shelves -/

theorem mem_categories {sh : Shelf} {c : String} :
    c ∈ sh.categories ↔ ∃ b ∈ sh.books, b.category = c := by
  simp [Shelf.categories, List.mem_dedup, List.mem_map]

theorem lookupCat_category : ∀ (byCat : List (String × List Book)),
    GroupInv byCat → ∀ (c : String), ∀ b ∈ lookupCat byCat c, b.category = c
  | [], _, c, b, hb => by simp [lookupCat] at hb
  | p :: rest, hinv, c, b, hb => by
    rw [lookupCat] at hb
    by_cases hpc : p.1 = c
    · rw [if_pos hpc] at hb
      rw [hinv p (List.mem_cons_self p rest) b hb, hpc]
    · rw [if_neg hpc] at hb
      exact lookupCat_category rest
        (fun q hq => hinv q (List.mem_cons_of_mem p hq)) c b hb

theorem mem_assignedBooks {byCat : List (String × List Book)} {n j : Nat} :
    ∀ {cs : List String} {i : Nat} {b : Book}, b ∈ assignedBooks byCat n j i cs →
      ∃ idx, ∃ h : idx < cs.length,
        b ∈ lookupCat byCat (cs.get ⟨idx, h⟩) ∧ (i + idx) % n = j := by
  intro cs
  induction cs with
  | nil => intro i b hb; simp [assignedBooks] at hb
  | cons c cs ih =>
    intro i b hb
    rw [assignedBooks] at hb
    rcases List.mem_append.mp hb with hb | hb
    · by_cases hij : i % n = j
      · rw [if_pos hij] at hb
        exact ⟨0, Nat.succ_pos _, hb, by simpa using hij⟩
      · rw [if_neg hij] at hb
        simp at hb
    · rcases ih hb with ⟨idx, hlt, hmem, hmod⟩
      refine ⟨idx + 1, Nat.succ_lt_succ hlt, ?_, ?_⟩
      · exact hmem
      · rw [← hmod]
        congr 1
        omega


/-! ## Each category lands on exactly one shelf -/

theorem organizedShelves_books (room : Room) (pile : List Book) {j : Nat}
    (hj : j < (organizedShelves room pile).length) :
    ∃ _ : j < room.shelves.length,
      ((organizedShelves room pile).get ⟨j, hj⟩).books =
        assignedBooks (groupByCategory pile) room.shelves.length j 0
          (sortCategories ((groupByCategory pile).map Prod.fst)) := by
  have hj' : j < room.shelves.length := organizedShelves_length room pile ▸ hj
  refine ⟨hj', ?_⟩
  have h1 : (organizedShelves room pile)[j]? = some ((organizedShelves room pile).get ⟨j, hj⟩) :=
    List.getElem?_eq_getElem hj
  have h2 : room.shelves[j]? = some (room.shelves.get ⟨j, hj'⟩) :=
    List.getElem?_eq_getElem hj'
  have h3 := organizedShelves_getElem? room pile j
  rw [h1, h2] at h3
  have h4 := Option.some.inj h3
  rw [h4]

theorem organize_cat_position (room : Room) (pile : List Book) {j : Nat}
    (hj : j < (organizedShelves room pile).length) {c : String}
    (hc : c ∈ ((organizedShelves room pile).get ⟨j, hj⟩).categories) :
    ∃ idx, ∃ hlt : idx < (sortCategories ((groupByCategory pile).map Prod.fst)).length,
      (sortCategories ((groupByCategory pile).map Prod.fst)).get ⟨idx, hlt⟩ = c ∧
        idx % room.shelves.length = j := by
  rcases organizedShelves_books room pile hj with ⟨-, hbooks⟩
  rcases mem_categories.mp hc with ⟨b, hb, hbc⟩
  rw [hbooks] at hb
  rcases mem_assignedBooks hb with ⟨idx, hlt, hmem, hmod⟩
  refine ⟨idx, hlt, ?_, by simpa using hmod⟩
  rw [← hbc]
  exact (lookupCat_category (groupByCategory pile) (groupByCategory_inv pile) _ b hmem).symm

theorem sortCategories_nodup (pile : List Book) :
    (sortCategories ((groupByCategory pile).map Prod.fst)).Nodup :=
  (List.perm_insertionSort (byKeyLE lowerKey) _).symm.nodup (groupByCategory_fst_nodup pile)

theorem organize_cat_unique {room room' : Room} {pile : List Book}
    (h : Catalog.organize_books_by_category room pile = .ok room')
    (j k : Nat) (hj : j < room'.shelves.length) (hk : k < room'.shelves.length)
    (c : String) (hcj : c ∈ (room'.shelves.get ⟨j, hj⟩).categories)
    (hck : c ∈ (room'.shelves.get ⟨k, hk⟩).categories) : j = k := by
  rcases organize_ok_elim h with ⟨hne, rfl⟩
  rcases organize_cat_position room pile hj hcj with ⟨idxj, hltj, hgetj, hmodj⟩
  rcases organize_cat_position room pile hk hck with ⟨idxk, hltk, hgetk, hmodk⟩
  have hidx : idxj = idxk := by
    have := (List.Nodup.get_inj_iff (sortCategories_nodup pile)).mp
      (hgetj.trans hgetk.symm)
    exact congrArg Fin.val this
  rw [← hmodj, ← hmodk, hidx]

theorem organize_verify_ok {room room' : Room} {pile : List Book}
    (h : Catalog.organize_books_by_category room pile = .ok room') :
    Catalog.verify_constraint_same_category_same_shelf room' = .ok () := by
  rw [verify_ok_iff, List.pairwise_iff_getElem]
  intro i j hi hj hij
  intro c hci hcj
  exact absurd (organize_cat_unique h i j hi hj c hci hcj) (Nat.ne_of_lt hij)


/-! ## Further helpers for the claims -/

theorem assignedBooks_eq_nil {byCat : List (String × List Book)} {n j : Nat} :
    ∀ {cs : List String} {i : Nat}, (∀ t, t < cs.length → (i + t) % n ≠ j) →
      assignedBooks byCat n j i cs = [] := by
  intro cs
  induction cs with
  | nil => intro i _; rfl
  | cons c cs ih =>
    intro i h
    rw [assignedBooks]
    have h0 : i % n ≠ j := by simpa using h 0 (Nat.succ_pos _)
    rw [if_neg h0, List.nil_append]
    apply ih
    intro t ht
    have h1 := h (t + 1) (Nat.succ_lt_succ ht)
    have h2 : i + 1 + t = i + (t + 1) := by omega
    rw [h2]
    exact h1

theorem clearedShelves_eq_of_names {shs₁ shs₂ : List Shelf}
    (hn : shs₁.map Shelf.name = shs₂.map Shelf.name) :
    shs₁.map (fun sh => { sh with books := [] }) =
      shs₂.map (fun sh => { sh with books := [] }) := by
  have h₁ : ∀ shs : List Shelf,
      shs.map (fun sh => ({ sh with books := [] } : Shelf)) =
        (shs.map Shelf.name).map (fun nm => { name := nm, books := [] }) := by
    intro shs
    rw [List.map_map]
    rfl
  rw [h₁, h₁, hn]

theorem organizedShelves_eq_of_names {room₁ room₂ : Room} (pile : List Book)
    (hn : room₁.shelves.map Shelf.name = room₂.shelves.map Shelf.name) :
    organizedShelves room₁ pile = organizedShelves room₂ pile := by
  have hlen : room₁.shelves.length = room₂.shelves.length := by
    rw [← List.length_map room₁.shelves Shelf.name, hn, List.length_map]
  rw [organizedShelves, organizedShelves, hlen, clearedShelves_eq_of_names hn]

theorem sort_books_by_title_name (sh : Shelf) :
    (sh.sort_books_by_title).name = sh.name := rfl

theorem sort_books_by_title_perm (sh : Shelf) :
    (sh.sort_books_by_title).books.Perm sh.books :=
  List.perm_insertionSort _ sh.books

theorem sort_books_by_title_categories {sh : Shelf} {c : String} :
    c ∈ (sh.sort_books_by_title).categories ↔ c ∈ sh.categories := by
  rw [mem_categories, mem_categories]
  constructor
  · rintro ⟨b, hb, hbc⟩
    exact ⟨b, (sort_books_by_title_perm sh).mem_iff.mp hb, hbc⟩
  · rintro ⟨b, hb, hbc⟩
    exact ⟨b, (sort_books_by_title_perm sh).mem_iff.mpr hb, hbc⟩

/-! ## Concrete rooms for the example-based claims -/

/-- The room of `demo()` after `organize_books_by_category(pile)`:
Classic and Programming on Left, Dystopian and Sci-Fi on Right,
Mystery alone on Top. -/
def demoOrganizedRoom : Room :=
  { owner := "Bob",
    shelves :=
      [ { name := "Left", books := [demoPile[0], demoPile[2], demoPile[3]] },
        { name := "Right", books := [demoPile[1], demoPile[4], demoPile[5]] },
        { name := "Top", books := [demoPile[6]] } ] }

/-- A room obtained from a valid allocation by manually appending a book
whose category ("Sci-Fi") is already assigned to shelf "Left" onto the
differently-named shelf "Right", bypassing the allocator. -/
def tamperedRoom : Room :=
  { owner := "Bob",
    shelves :=
      [ { name := "Left", books := [demoPile[4]] },
        { name := "Right", books := [demoPile[6], demoPile[5]] } ] }

/-- A room with two distinct shelves that share the name "A" and both hold
books of the category "Sci-Fi". -/
def dupNameRoom : Room :=
  { owner := "Bob",
    shelves :=
      [ { name := "A", books := [demoPile[4]] },
        { name := "A", books := [demoPile[5]] } ] }


/-! ## The claims -/

/-- C1: after a successful `organize_books_by_category`, the concatenation of
all shelf contents is a permutation of the input pile — every book ends up
in exactly one shelf, none is dropped or duplicated, and duplicate books of
the pile are preserved verbatim — and every shelf index hit by no category
index `i` (via `i % n`) keeps its cleared, empty self. -/
theorem C1_organize_partitions_pile (room room' : Room) (pile : List Book)
    (h : Catalog.organize_books_by_category room pile = .ok room') :
    ((room'.shelves.map Shelf.books).flatten).Perm pile ∧
    ∀ j, (∀ i, i < (groupByCategory pile).length → i % room.shelves.length ≠ j) →
      room'.shelves[j]? = room.shelves[j]?.map fun sh => { sh with books := [] } := by
  rcases organize_ok_elim h with ⟨hne, rfl⟩
  constructor
  · exact organizedShelves_flatten_perm room pile hne
  · intro j hj
    show (organizedShelves room pile)[j]? = _
    rw [organizedShelves_getElem?]
    have hlen : (sortCategories ((groupByCategory pile).map Prod.fst)).length =
        (groupByCategory pile).length := by
      rw [sortCategories, (List.perm_insertionSort _ _).length_eq, List.length_map]
    have hnil : assignedBooks (groupByCategory pile) room.shelves.length j 0
        (sortCategories ((groupByCategory pile).map Prod.fst)) = [] := by
      apply assignedBooks_eq_nil
      intro t ht
      rw [Nat.zero_add]
      exact hj t (hlen ▸ ht)
    rw [hnil]

/-- Witness for C1: the `demo()` pile over the `demo()` room. -/
theorem C1_organize_partitions_pile_witness :
    ((demoOrganizedRoom.shelves.map Shelf.books).flatten).Perm demoPile :=
  (C1_organize_partitions_pile demoRoom demoOrganizedRoom demoPile (by rfl)).1

/-- C2: immediately after a successful `organize_books_by_category`, each
category present anywhere maps to exactly one shelf — no category appears in
two distinct shelf positions — and the invariant check
`verify_constraint_same_category_same_shelf` passes. -/
theorem C2_one_category_one_shelf (room room' : Room) (pile : List Book)
    (h : Catalog.organize_books_by_category room pile = .ok room') :
    Catalog.verify_constraint_same_category_same_shelf room' = .ok () ∧
    ∀ (j k : Nat) (hj : j < room'.shelves.length) (hk : k < room'.shelves.length)
      (c : String), c ∈ (room'.shelves.get ⟨j, hj⟩).categories →
      c ∈ (room'.shelves.get ⟨k, hk⟩).categories → j = k :=
  ⟨organize_verify_ok h,
    fun j k hj hk c hcj hck => organize_cat_unique h j k hj hk c hcj hck⟩

/-- Witness for C2: the `demo()` data. -/
theorem C2_one_category_one_shelf_witness :
    Catalog.verify_constraint_same_category_same_shelf demoOrganizedRoom = .ok () :=
  (C2_one_category_one_shelf demoRoom demoOrganizedRoom demoPile (by rfl)).1

/-- C3: the visiting order of the distinct categories is sorted ascending by
the case-insensitive key, is a permutation of the distinct categories of
the pile (first-seen order, no duplicates), breaks case-insensitive ties by
the original key order (the filter at any key is unchanged, i.e. the sort is
stable), and a successful organize gives shelf `j` exactly the groups of the
categories at positions `i` with `i % n = j` (`assignedBooks`); on the
`demo()` data this yields Classic and Programming on Left, Dystopian and
Sci-Fi on Right, and only the Mystery group on Top. -/
theorem C3_round_robin_order (pile : List Book) :
    List.Sorted (byKeyLE lowerKey) (sortCategories ((groupByCategory pile).map Prod.fst))
    ∧ (sortCategories ((groupByCategory pile).map Prod.fst)).Perm
        ((groupByCategory pile).map Prod.fst)
    ∧ ((groupByCategory pile).map Prod.fst).Nodup
    ∧ (∀ c, c ∈ (groupByCategory pile).map Prod.fst ↔ ∃ b ∈ pile, b.category = c)
    ∧ (∀ k, (sortCategories ((groupByCategory pile).map Prod.fst)).filter
          (fun c => lowerKey c = k) =
        ((groupByCategory pile).map Prod.fst).filter (fun c => lowerKey c = k))
    ∧ (∀ room room' : Room, Catalog.organize_books_by_category room pile = .ok room' →
        ∀ j, room'.shelves[j]? = room.shelves[j]?.map fun sh : Shelf =>
          { sh with books := (assignedBooks (groupByCategory pile) room.shelves.length j 0
              (sortCategories ((groupByCategory pile).map Prod.fst))) })
    ∧ Catalog.organize_books_by_category demoRoom demoPile = .ok demoOrganizedRoom := by
  refine ⟨List.sorted_insertionSort _ _, List.perm_insertionSort _ _,
    groupByCategory_fst_nodup pile, fun c => mem_fst_groupByCategory,
    fun k => filter_insertionSort_byKey lowerKey k _, ?_, by rfl⟩
  intro room room' h j
  rcases organize_ok_elim h with ⟨hne, rfl⟩
  show (organizedShelves room pile)[j]? = _
  exact organizedShelves_getElem? room pile j

/-- Witness for C3: the shelf characterization at the `demo()` data. -/
theorem C3_round_robin_order_witness :
    ∀ j, demoOrganizedRoom.shelves[j]? = demoRoom.shelves[j]?.map fun sh : Shelf =>
      { sh with books := (assignedBooks (groupByCategory demoPile) demoRoom.shelves.length j 0
          (sortCategories ((groupByCategory demoPile).map Prod.fst))) } :=
  (C3_round_robin_order demoPile).2.2.2.2.2.1 demoRoom demoOrganizedRoom (by rfl)

/-- C4: `organize_books_by_category` raises the no-shelves error exactly when
the room has no shelves, whatever the pile (including the empty pile); with
at least one shelf it returns a result, and the no-shelves error is the only
error it can raise. -/
theorem C4_no_shelves_error (room : Room) (pile : List Book) :
    (Catalog.organize_books_by_category room pile = .error .noShelves ↔ room.shelves = [])
    ∧ (room.shelves ≠ [] →
        Catalog.organize_books_by_category room pile =
          .ok { room with shelves := organizedShelves room pile })
    ∧ (∀ e, Catalog.organize_books_by_category room pile = .error e →
        room.shelves = [] ∧ e = .noShelves) := by
  refine ⟨⟨?_, organize_eq_error room pile⟩, organize_eq_ok room pile, ?_⟩
  · intro h
    by_contra hne
    rw [organize_eq_ok room pile hne] at h
    exact absurd h (by simp)
  · intro e he
    by_cases hsh : room.shelves = []
    · rw [organize_eq_error room pile hsh] at he
      have : CatalogError.noShelves = e := Except.error.inj he
      exact ⟨hsh, this.symm⟩
    · rw [organize_eq_ok room pile hsh] at he
      exact absurd he (by simp)

/-- Witness for C4: the empty room errors on the empty pile; the `demo()`
room never errors. -/
theorem C4_no_shelves_error_witness :
    Catalog.organize_books_by_category { owner := "Bob", shelves := [] } [] =
      .error .noShelves
    ∧ Catalog.organize_books_by_category demoRoom demoPile =
        .ok { demoRoom with shelves := organizedShelves demoRoom demoPile } :=
  ⟨(C4_no_shelves_error { owner := "Bob", shelves := [] } []).1.mpr rfl,
    (C4_no_shelves_error demoRoom demoPile).2.1 (by simp [demoRoom])⟩

/-- C5: `organize_books_by_category` is idempotent from scratch — running it
again with the same pile on the room it just produced succeeds and returns
exactly the same room, because every shelf is cleared before refilling. -/
theorem C5_organize_idempotent (room room' : Room) (pile : List Book)
    (h : Catalog.organize_books_by_category room pile = .ok room') :
    Catalog.organize_books_by_category room' pile = .ok room' := by
  rcases organize_ok_elim h with ⟨hne, rfl⟩
  have hne' : ({ room with shelves := organizedShelves room pile } : Room).shelves ≠ [] := by
    show organizedShelves room pile ≠ []
    intro hnil
    have h0 := organizedShelves_length room pile
    rw [hnil] at h0
    exact hne (List.length_eq_zero.mp h0.symm)
  have heq : organizedShelves ({ room with shelves := organizedShelves room pile } : Room)
      pile = organizedShelves room pile :=
    organizedShelves_eq_of_names pile (organizedShelves_map_name room pile)
  rw [organize_eq_ok _ pile hne', heq]

/-- Witness for C5: re-organizing the organized `demo()` room. -/
theorem C5_organize_idempotent_witness :
    Catalog.organize_books_by_category demoOrganizedRoom demoPile = .ok demoOrganizedRoom :=
  C5_organize_idempotent demoRoom demoOrganizedRoom demoPile (by rfl)

/-- C6: `sort_books_by_title` leaves a shelf with its books in non-descending
case-insensitive title order, is stable (the books at any fixed title key
keep their original relative order), and is the identity on an empty shelf;
`sort_books_on_all_shelves` applies it to every shelf in order and has no
failure conditions. -/
theorem C6_sort_by_title_stable (sh : Shelf) (k : List Char) (room : Room) :
    List.Sorted (byKeyLE fun b => lowerKey b.title) (sh.sort_books_by_title).books
    ∧ (sh.sort_books_by_title).books.filter (fun b => lowerKey b.title = k) =
        sh.books.filter (fun b => lowerKey b.title = k)
    ∧ (sh.books = [] → sh.sort_books_by_title = sh)
    ∧ (Catalog.sort_books_on_all_shelves room).shelves =
        room.shelves.map Shelf.sort_books_by_title := by
  refine ⟨List.sorted_insertionSort _ _, filter_insertionSort_byKey _ k _, ?_, rfl⟩
  intro hempty
  cases sh with
  | mk name books =>
    subst hempty
    rfl

/-- Witness for C6: the empty shelf is untouched. -/
theorem C6_sort_by_title_stable_witness :
    ({ name := "E", books := [] } : Shelf).sort_books_by_title =
      { name := "E", books := [] } :=
  (C6_sort_by_title_stable { name := "E", books := [] } [] demoRoom).2.2.1 rfl

/-- C7: `verify_constraint_same_category_same_shelf` raises exactly when the
shelf list is not pairwise compatible (some category sits on a later shelf
after being bound to a differently-named shelf); any raised error is an
`invariantViolation` naming such a category and the two differently-named
shelves that both hold it; and on the room obtained by manually appending a
Sci-Fi book to the second shelf after Sci-Fi was assigned to "Left", it
raises exactly that violation. -/
theorem C7_verify_violation_error (room : Room) :
    ((∃ e, Catalog.verify_constraint_same_category_same_shelf room = .error e) ↔
      ¬ room.shelves.Pairwise shelvesCompat)
    ∧ (∀ e, Catalog.verify_constraint_same_category_same_shelf room = .error e →
        ∃ c prev nm, e = .invariantViolation c prev nm ∧ prev ≠ nm ∧
          (∃ sh ∈ room.shelves, sh.name = prev ∧ c ∈ sh.categories) ∧
          (∃ sh ∈ room.shelves, sh.name = nm ∧ c ∈ sh.categories))
    ∧ Catalog.verify_constraint_same_category_same_shelf tamperedRoom =
        .error (.invariantViolation "Sci-Fi" "Left" "Right") := by
  refine ⟨?_, fun e he => verify_error room e he, by rfl⟩
  rw [← verify_ok_iff]
  exact (verify_not_ok_iff_error room).symm

/-- Witness for C7: the error raised on the tampered room names the category
and both shelves. -/
theorem C7_verify_violation_error_witness :
    ∃ c prev nm,
      CatalogError.invariantViolation "Sci-Fi" "Left" "Right" =
        .invariantViolation c prev nm ∧ prev ≠ nm ∧
      (∃ sh ∈ tamperedRoom.shelves, sh.name = prev ∧ c ∈ sh.categories) ∧
      (∃ sh ∈ tamperedRoom.shelves, sh.name = nm ∧ c ∈ sh.categories) :=
  (C7_verify_violation_error tamperedRoom).2.1 _
    (C7_verify_violation_error tamperedRoom).2.2

/-- C8: with at least one shelf, organizing an empty pile succeeds and leaves
every shelf empty, discarding whatever the shelves held before. -/
theorem C8_empty_pile_clears (room : Room) (h : room.shelves ≠ []) :
    Catalog.organize_books_by_category room [] =
      .ok { room with shelves := room.shelves.map fun sh => { sh with books := [] } } :=
  organize_eq_ok room [] h

/-- Witness for C8: the organized `demo()` room, full of books, is fully
cleared by organizing an empty pile. -/
theorem C8_empty_pile_clears_witness :
    Catalog.organize_books_by_category demoOrganizedRoom [] =
      .ok { demoOrganizedRoom with
            shelves := demoOrganizedRoom.shelves.map fun sh => { sh with books := [] } } :=
  C8_empty_pile_clears demoOrganizedRoom (by simp [demoOrganizedRoom])

/-- C9: `sort_books_on_all_shelves` only permutes each shelf's books in
place — shelf count, shelf names, the multiset of books per shelf and hence
each shelf's category set are unchanged — so if the invariant check passed
before sorting it passes after. -/
theorem C9_sortAll_preserves (room : Room) :
    ((Catalog.sort_books_on_all_shelves room).shelves.length = room.shelves.length)
    ∧ (∀ j (hj : j < (Catalog.sort_books_on_all_shelves room).shelves.length)
        (hj' : j < room.shelves.length),
        ((Catalog.sort_books_on_all_shelves room).shelves.get ⟨j, hj⟩).name =
          (room.shelves.get ⟨j, hj'⟩).name
        ∧ ((Catalog.sort_books_on_all_shelves room).shelves.get ⟨j, hj⟩).books.Perm
            (room.shelves.get ⟨j, hj'⟩).books
        ∧ ∀ c, c ∈ ((Catalog.sort_books_on_all_shelves room).shelves.get ⟨j, hj⟩).categories ↔
            c ∈ (room.shelves.get ⟨j, hj'⟩).categories)
    ∧ (Catalog.verify_constraint_same_category_same_shelf room = .ok () →
        Catalog.verify_constraint_same_category_same_shelf
          (Catalog.sort_books_on_all_shelves room) = .ok ()) := by
  refine ⟨by simp [Catalog.sort_books_on_all_shelves], ?_, ?_⟩
  · intro j hj hj'
    have h1 : (Catalog.sort_books_on_all_shelves room).shelves[j]? =
        (room.shelves[j]?).map Shelf.sort_books_by_title := by
      show (room.shelves.map Shelf.sort_books_by_title)[j]? = _
      exact List.getElem?_map Shelf.sort_books_by_title room.shelves j
    rw [List.getElem?_eq_getElem hj, List.getElem?_eq_getElem hj'] at h1
    simp only [Option.map_some'] at h1
    have hget : (Catalog.sort_books_on_all_shelves room).shelves.get ⟨j, hj⟩ =
        (room.shelves.get ⟨j, hj'⟩).sort_books_by_title := Option.some.inj h1
    rw [hget]
    exact ⟨sort_books_by_title_name _, sort_books_by_title_perm _,
      fun c => sort_books_by_title_categories⟩
  · intro hok
    rw [verify_ok_iff] at hok ⊢
    show (room.shelves.map Shelf.sort_books_by_title).Pairwise shelvesCompat
    apply hok.map Shelf.sort_books_by_title
    intro a b hab c hca hcb
    rw [sort_books_by_title_name, sort_books_by_title_name]
    exact hab c (sort_books_by_title_categories.mp hca)
      (sort_books_by_title_categories.mp hcb)

/-- Witness for C9: sorting the organized `demo()` room keeps the invariant. -/
theorem C9_sortAll_preserves_witness :
    Catalog.verify_constraint_same_category_same_shelf
      (Catalog.sort_books_on_all_shelves demoOrganizedRoom) = .ok () :=
  (C9_sortAll_preserves demoOrganizedRoom).2.2 (by rfl)

/-- C10: the invariant check distinguishes shelves only by their name
string: a room whose shelves all share one name never raises, even when two
distinct shelves hold the same category — as on the concrete room with two
shelves named "A" both holding Sci-Fi books. -/
theorem C10_verify_name_based :
    (∀ room : Room, (∀ s1 ∈ room.shelves, ∀ s2 ∈ room.shelves, s1.name = s2.name) →
      Catalog.verify_constraint_same_category_same_shelf room = .ok ())
    ∧ Catalog.verify_constraint_same_category_same_shelf dupNameRoom = .ok () := by
  refine ⟨?_, by rfl⟩
  intro room h
  rw [verify_ok_iff]
  apply List.pairwise_of_forall_mem_list
  intro a ha b hb c _ _
  exact h a ha b hb

/-- Witness for C10: the duplicate-name room discharges the hypothesis. -/
theorem C10_verify_name_based_witness :
    Catalog.verify_constraint_same_category_same_shelf dupNameRoom = .ok () :=
  C10_verify_name_based.1 dupNameRoom (by decide)

end Bookshelf
